import Mathlib

/-!
Shallow embedding of the trice decoder package (src/internal/decoder/decoder.go):
the format-specifier classifier `UReplaceN` and the endian readers
`ReadU16` / `ReadU32` / `ReadU64`, together with theorems about them.

Strings are modelled as `List Char`; the Go regular expressions are embedded
as deterministic scanners.  This is exact for these particular patterns: in
every pattern of the source (`%flags*letter`) the flag character class and the
conversion-letter set are disjoint, so the backtracking regex search has a
unique candidate match at each starting `%` and the greedy scan below computes
precisely the leftmost regex match.
-/

namespace TriceDecoder

/-- Flag-character class `[+\-#'0-9\.0-9]` of `patNextFormatSpecifier`. -/
def isFlag (c : Char) : Bool :=
  c = '+' || c = '-' || c = '#' || c = Char.ofNat 39 || c = '.' || c.isDigit

/-- Conversion letters `(b|c|d|e|f|g|E|F|G|h|i|l|L|n|o|O|p|q|t|u|x|X)` of
`patNextFormatSpecifier`.  Note `s` and `a` are absent. -/
def isConv (c : Char) : Bool :=
  c = 'b' || c = 'c' || c = 'd' || c = 'e' || c = 'f' || c = 'g' ||
  c = 'E' || c = 'F' || c = 'G' || c = 'h' || c = 'i' || c = 'l' ||
  c = 'L' || c = 'n' || c = 'o' || c = 'O' || c = 'p' || c = 'q' ||
  c = 't' || c = 'u' || c = 'x' || c = 'X'

/-- Character class `[(+\-0-9\.0-9#]` of `patNextFormatFSpecifier`. -/
def isFloatFlag (c : Char) : Bool :=
  c = '(' || c = '+' || c = '-' || c.isDigit || c = '.' || c = '#'

/-- Final letters `(e|E|f|F|g|G)` of `patNextFormatFSpecifier`. -/
def isFloatConv (c : Char) : Bool :=
  c = 'e' || c = 'E' || c = 'f' || c = 'F' || c = 'g' || c = 'G'

/-- Final letters `(l|o|O|x|X|b|p|t)` of `patNextFormatXSpecifier`. -/
def isXConv (c : Char) : Bool :=
  c = 'l' || c = 'o' || c = 'O' || c = 'x' || c = 'X' || c = 'b' ||
  c = 'p' || c = 't'

/-- Greedy tail of a `%cls*fin`-style regex: consume characters of class
`cls`, then test the next character with `fin`.  Because in every pattern of
the source `cls` and `fin` never both hold for a character, this equals the
backtracking regex semantics. -/
def matchTailRun (cls fin : Char → Bool) : List Char → Bool
  | [] => false
  | c :: rest => if cls c then matchTailRun cls fin rest else fin c

/-- Regexp `FindStringIndex s ≠ nil` for a pattern `%cls*fin`: does any
position of `s` start a match? -/
def hasPat (cls fin : Char → Bool) : List Char → Bool
  | [] => false
  | c :: rest => (c = '%' && matchTailRun cls fin rest) || hasPat cls fin rest

/-- Attempt to match the tail (after a `%`) of `patNextFormatSpecifier`:
a run of flag characters followed by one conversion letter.  Returns the
flag run, the conversion letter and the unconsumed remainder. -/
def specTail (im : List Char) : Option (List Char × Char × List Char) :=
  match im.dropWhile isFlag with
  | [] => none
  | l :: tail => if isConv l then some (im.takeWhile isFlag, l, tail) else none

/-- Classification of one matched directive `fm`, following the branch order
of `UReplaceN` (decoder.go lines 175–211): pointer, bool, float, `u`, `i`,
hex family, default.  Returns the kind code appended to `u` and whether the
conversion letter is rewritten to `d`. -/
def classifyFm (Unsigned : Bool) (fm : List Char) : Int × Bool :=
  if hasPat (fun _ => false) (fun c => c = 'p') fm then (4, false)
  else if hasPat (fun _ => false) (fun c => c = 't') fm then (3, false)
  else if hasPat isFloatFlag isFloatConv fm then (2, false)
  else if hasPat Char.isDigit (fun c => c = 'u') fm then (0, true)
  else if hasPat Char.isDigit (fun c => c = 'i') fm then (1, true)
  else if hasPat Char.isDigit isXConv fm then ((if Unsigned then 0 else 1), false)
  else (1, false)

/-- The output-side effect of one directive match `%fl l`: when the
classification asks for a rewrite (`u` or `i` letter), the conversion letter
(at position `fl.length + 1` of the unprocessed output) is replaced by `d`
(decoder.go lines 192 and 198); otherwise the output is untouched. -/
def rewriteOut (Unsigned : Bool) (fl : List Char) (l : Char) (om : List Char) :
    List Char :=
  if (classifyFm Unsigned ('%' :: (fl ++ [l]))).2 then om.set (fl.length + 1) 'd'
  else om

/-- Embedding of `strings.ReplaceAll(i, "%%", "__")` (decoder.go line 165). -/
def mask : List Char → List Char
  | [] => []
  | [c] => [c]
  | c :: c2 :: rest =>
    if c = '%' ∧ c2 = '%' then '_' :: '_' :: mask rest
    else c :: mask (c2 :: rest)

/-- The scan loop of `UReplaceN` (decoder.go lines 167–212).  `im` is the
unprocessed part of the masked string, `om` the corresponding part of the
output string; the result is the processed remainder of `om` together with
the kind codes of the directives found.  `fuel` bounds the recursion; every
step consumes at least one character of `im`, so `fuel = im.length` is always
enough. -/
def scanF (Unsigned : Bool) : Nat → List Char → List Char → List Char × List Int
  | 0, _, om => (om, [])
  | _ + 1, [], om => (om, [])
  | fuel + 1, c :: im, om =>
    match (if c = '%' then specTail im else none) with
    | some (fl, l, tail) =>
      let n := fl.length + 2
      let kr := classifyFm Unsigned ('%' :: (fl ++ [l]))
      let om2 := if kr.2 then om.set (n - 1) 'd' else om
      let r := scanF Unsigned fuel tail (om2.drop n)
      (om2.take n ++ r.1, kr.1 :: r.2)
    | none =>
      let r := scanF Unsigned fuel im (om.drop 1)
      (om.take 1 ++ r.1, r.2)

/-- Embedding of `UReplaceN` (decoder.go lines 163–213).  The global
`decoder.Unsigned` switch is passed explicitly. -/
def UReplaceN (Unsigned : Bool) (i : List Char) : List Char × List Int :=
  scanF Unsigned i.length (mask i) i

/-- The mutable package-level switches of the decoder package
(decoder.go lines 62–95), restricted to values with a direct shallow
embedding. -/
structure DecoderGlobals where
  Verbose : Bool
  ShowID : List Char
  TestTableMode : Bool
  Unsigned : Bool
  DebugOut : Bool
  InitialCycle : Bool
  TargetTimestamp : Nat
  TargetLocation : Nat

/-- UReplaceN as it reads the package-level state: among all globals it
consults only `Unsigned`. -/
def UReplaceNGlob (g : DecoderGlobals) (i : List Char) : List Char × List Int :=
  UReplaceN g.Unsigned i

/-- A string that consists only of literal text and escaped `%%` pairs:
every `%` is immediately followed by another `%`, and the pair is consumed
together. -/
def onlyEsc : List Char → Bool
  | [] => true
  | [c] => if c = '%' then false else true
  | c :: c2 :: rest =>
    if c = '%' then (if c2 = '%' then onlyEsc rest else false)
    else onlyEsc (c2 :: rest)

/-- The common decoder state `DecoderData` (decoder.go lines 107–123),
restricted to the fields with a direct shallow embedding (the reader/writer
handles and the lookup maps are external collaborators). -/
structure DecoderData where
  IBuf : List Nat
  B : List Nat
  Endian : Bool
  TriceSize : Nat
  ParamSpace : Nat
  SLen : Nat

/-- Embedding of `ReadU16` (decoder.go lines 132–138):
`binary.LittleEndian.Uint16` / `binary.BigEndian.Uint16` on the first two
bytes.  Go panics when fewer than 2 bytes are supplied; this is modelled by
`none`. -/
def DecoderData.ReadU16 (p : DecoderData) (b : List Nat) : Option Nat :=
  match b with
  | b0 :: b1 :: _ =>
    some (if p.Endian then b0 ||| b1 <<< 8 else b1 ||| b0 <<< 8)
  | _ => none

/-- Embedding of `ReadU32` (decoder.go lines 140–146). -/
def DecoderData.ReadU32 (p : DecoderData) (b : List Nat) : Option Nat :=
  match b with
  | b0 :: b1 :: b2 :: b3 :: _ =>
    some (if p.Endian then b0 ||| b1 <<< 8 ||| b2 <<< 16 ||| b3 <<< 24
          else b3 ||| b2 <<< 8 ||| b1 <<< 16 ||| b0 <<< 24)
  | _ => none

/-- Embedding of `ReadU64` (decoder.go lines 148–154). -/
def DecoderData.ReadU64 (p : DecoderData) (b : List Nat) : Option Nat :=
  match b with
  | b0 :: b1 :: b2 :: b3 :: b4 :: b5 :: b6 :: b7 :: _ =>
    some (if p.Endian then
            b0 ||| b1 <<< 8 ||| b2 <<< 16 ||| b3 <<< 24 ||| b4 <<< 32 |||
            b5 <<< 40 ||| b6 <<< 48 ||| b7 <<< 56
          else
            b7 ||| b6 <<< 8 ||| b5 <<< 16 ||| b4 <<< 24 ||| b3 <<< 32 |||
            b2 <<< 40 ||| b1 <<< 48 ||| b0 <<< 56)
  | _ => none

/-- Spec-side definition, following the words of the Endian Reader contract:
the unsigned integer encoded by a byte sequence interpreted little-endian
(first byte is least significant). -/
def specLittleEndianValue : List Nat → Nat
  | [] => 0
  | b :: rest => b + 256 * specLittleEndianValue rest

/-- Spec-side definition: the unsigned integer encoded by a byte sequence
interpreted big-endian (first byte is most significant). -/
def specBigEndianValue (l : List Nat) : Nat :=
  specLittleEndianValue l.reverse

/-! ### Helper lemmas about `mask` -/

theorem mask_cons_ne {c : Char} (h : ¬ c = '%') (x : List Char) :
    mask (c :: x) = c :: mask x := by
  cases x with
  | nil => rfl
  | cons c2 r => simp [mask, h]

theorem mask_pct_cons_ne {c : Char} (h : ¬ c = '%') (x : List Char) :
    mask ('%' :: c :: x) = '%' :: mask (c :: x) := by
  simp [mask, h]

theorem mask_append_no_pct {pre : List Char} (h : ∀ c ∈ pre, ¬ c = '%')
    (x : List Char) : mask (pre ++ x) = pre ++ mask x := by
  induction pre with
  | nil => simp
  | cons c p ih =>
    rw [List.cons_append, mask_cons_ne (h c (by simp)),
      ih (fun d hd => h d (by simp [hd]))]
    rfl

theorem mask_id_no_pct {i : List Char} (h : ∀ c ∈ i, ¬ c = '%') :
    mask i = i := by
  have := mask_append_no_pct h ([] : List Char)
  simpa [mask] using this

theorem mask_length (i : List Char) : (mask i).length = i.length := by
  induction i using mask.induct with
  | case1 => rfl
  | case2 c => rfl
  | case3 c c2 rest h ih => simp [mask, h, ih]
  | case4 c c2 rest h ih => simp only [mask, if_neg h, List.length_cons, ih]

theorem mask_pct_append {ds : List Char} (hds : ∀ c ∈ ds, ¬ c = '%')
    {l : Char} (hl : ¬ l = '%') (x : List Char) :
    mask ('%' :: (ds ++ l :: x)) = '%' :: (ds ++ l :: mask x) := by
  cases ds with
  | nil => rw [List.nil_append, mask_pct_cons_ne hl, mask_cons_ne hl, List.nil_append]
  | cons d ds' =>
    rw [List.cons_append, mask_pct_cons_ne (hds d (by simp)), ← List.cons_append,
      mask_append_no_pct hds, mask_cons_ne hl]

/-! ### Helper lemmas about the scan loop -/

theorem scanF_nil (u : Bool) (f : Nat) (om : List Char) :
    scanF u f [] om = (om, []) := by
  cases f <;> rfl

theorem scanF_step_ne (u : Bool) (f : Nat) {c : Char} (hc : ¬ c = '%')
    (im om : List Char) :
    scanF u (f + 1) (c :: im) om =
      (om.take 1 ++ (scanF u f im (om.drop 1)).1, (scanF u f im (om.drop 1)).2) := by
  simp [scanF, hc]

theorem scanF_step_pct_none (u : Bool) (f : Nat) {im : List Char}
    (h : specTail im = none) (om : List Char) :
    scanF u (f + 1) ('%' :: im) om =
      (om.take 1 ++ (scanF u f im (om.drop 1)).1, (scanF u f im (om.drop 1)).2) := by
  simp [scanF, h]

theorem scanF_step_match (u : Bool) (f : Nat) {im fl : List Char} {l : Char}
    {tail : List Char} (h : specTail im = some (fl, l, tail)) (om : List Char) :
    scanF u (f + 1) ('%' :: im) om =
      ((rewriteOut u fl l om).take (fl.length + 2) ++
        (scanF u f tail ((rewriteOut u fl l om).drop (fl.length + 2))).1,
       (classifyFm u ('%' :: (fl ++ [l]))).1 ::
        (scanF u f tail ((rewriteOut u fl l om).drop (fl.length + 2))).2) := by
  simp [scanF, h, rewriteOut]

/-! ### Helper lemmas about lists and `specTail` -/

theorem takeWhile_run {p : Char → Bool} {ds : List Char}
    (h : ∀ c ∈ ds, p c = true) (y : List Char) :
    (ds ++ y).takeWhile p = ds ++ y.takeWhile p := by
  induction ds with
  | nil => simp
  | cons d ds' ih =>
    simp [List.takeWhile_cons, h d (by simp), ih (fun c hc => h c (by simp [hc]))]

theorem dropWhile_run {p : Char → Bool} {ds : List Char}
    (h : ∀ c ∈ ds, p c = true) (y : List Char) :
    (ds ++ y).dropWhile p = y.dropWhile p := by
  induction ds with
  | nil => simp
  | cons d ds' ih =>
    simp only [List.cons_append, List.dropWhile_cons, h d (by simp)]
    exact ih (fun c hc => h c (by simp [hc]))

theorem specTail_of_run {fl : List Char} (hfl : ∀ c ∈ fl, isFlag c = true)
    {l : Char} (h1 : isFlag l = false) (h2 : isConv l = true)
    (tail : List Char) : specTail (fl ++ l :: tail) = some (fl, l, tail) := by
  unfold specTail
  rw [dropWhile_run hfl, takeWhile_run hfl]
  simp [List.dropWhile_cons, List.takeWhile_cons, h1, h2]

theorem specTail_some_len {im fl : List Char} {l : Char} {tail : List Char}
    (h : specTail im = some (fl, l, tail)) : tail.length < im.length := by
  unfold specTail at h
  cases hd : im.dropWhile isFlag with
  | nil => rw [hd] at h; exact absurd h (by simp)
  | cons l2 t2 =>
    rw [hd] at h
    by_cases hc : isConv l2
    · simp only [hc, if_true, Option.some.injEq, Prod.mk.injEq] at h
      obtain ⟨-, -, rfl⟩ := h
      have h1 : t2.length + 1 = (im.dropWhile isFlag).length := by rw [hd]; rfl
      have h2 := (List.dropWhile_sublist (l := im) isFlag).length_le
      omega
    · simp [hc] at h

theorem set_append_len {α : Type} (ds : List α) (x y : α) (r : List α) :
    (ds ++ x :: r).set ds.length y = ds ++ y :: r := by
  induction ds with
  | nil => rfl
  | cons d ds' ih => simp [List.set, ih]

theorem take_append_len {α : Type} (ds : List α) (x : α) (r : List α) :
    (ds ++ x :: r).take (ds.length + 1) = ds ++ [x] := by
  induction ds with
  | nil => rfl
  | cons d ds' ih => simp [List.take, ih]

theorem drop_append_len {α : Type} (ds : List α) (x : α) (r : List α) :
    (ds ++ x :: r).drop (ds.length + 1) = r := by
  induction ds with
  | nil => rfl
  | cons d ds' ih => simp [List.drop, ih]

/-! ### Structural lemmas about the full scan -/

theorem scanF_no_pct (u : Bool) {im : List Char} (h : ∀ c ∈ im, ¬ c = '%') :
    ∀ f : Nat, im.length ≤ f → ∀ om : List Char, scanF u f im om = (om, []) := by
  induction im with
  | nil => intro f _ om; exact scanF_nil u f om
  | cons c im' ih =>
    intro f hf om
    cases f with
    | zero => simp at hf
    | succ g =>
      rw [scanF_step_ne u g (h c (by simp)) im' om,
        ih (fun d hd => h d (by simp [hd])) g
          (by simp only [List.length_cons] at hf; omega) (om.drop 1)]
      rw [Prod.mk.injEq]
      exact ⟨List.take_append_drop 1 om, rfl⟩

theorem scanF_prefix (u : Bool) {pre : List Char} (h : ∀ c ∈ pre, ¬ c = '%')
    (f : Nat) (im om : List Char) :
    scanF u (pre.length + f) (pre ++ im) (pre ++ om) =
      (pre ++ (scanF u f im om).1, (scanF u f im om).2) := by
  induction pre with
  | nil => simp
  | cons c p ih =>
    have harith : (c :: p).length + f = (p.length + f) + 1 := by
      simp only [List.length_cons]; omega
    rw [harith, List.cons_append, List.cons_append,
      scanF_step_ne u (p.length + f) (h c (by simp)) (p ++ im) (c :: (p ++ om))]
    simp only [List.take_cons, List.take_zero, List.drop_succ_cons, List.drop_zero]
    rw [ih (fun d hd => h d (by simp [hd]))]
    simp

theorem scanF_fuel (u : Bool) :
    ∀ (f1 : Nat) (im : List Char), im.length ≤ f1 →
      ∀ (f2 : Nat), im.length ≤ f2 → ∀ om, scanF u f1 im om = scanF u f2 im om := by
  intro f1
  induction f1 with
  | zero =>
    intro im h1 f2 _ om
    have : im = [] := List.eq_nil_of_length_eq_zero (Nat.le_zero.mp h1)
    subst this
    rw [scanF_nil, scanF_nil]
  | succ g1 ih =>
    intro im h1 f2 h2 om
    cases im with
    | nil => rw [scanF_nil, scanF_nil]
    | cons c im' =>
      cases f2 with
      | zero => simp at h2
      | succ g2 =>
        by_cases hc : c = '%'
        · subst hc
          cases hspec : specTail im' with
          | none =>
            rw [scanF_step_pct_none u g1 hspec om, scanF_step_pct_none u g2 hspec om,
              ih im' (by simpa using h1) g2 (by simpa using h2) (om.drop 1)]
          | some res =>
            obtain ⟨fl, l, tail⟩ := res
            have hlen := specTail_some_len hspec
            have hl1 : tail.length ≤ g1 := by simp at h1; omega
            have hl2 : tail.length ≤ g2 := by simp at h2; omega
            rw [scanF_step_match u g1 hspec om, scanF_step_match u g2 hspec om,
              ih tail hl1 g2 hl2 ((rewriteOut u fl l om).drop (fl.length + 2))]
        · rw [scanF_step_ne u g1 hc im' om, scanF_step_ne u g2 hc im' om,
            ih im' (by simpa using h1) g2 (by simpa using h2) (om.drop 1)]

theorem scanF_len (u : Bool) :
    ∀ (f : Nat) (im om : List Char), ((scanF u f im om).1).length = om.length := by
  intro f
  induction f with
  | zero => intro im om; rfl
  | succ g ih =>
    intro im om
    cases im with
    | nil => rfl
    | cons c im' =>
      by_cases hc : c = '%'
      · subst hc
        cases hspec : specTail im' with
        | none =>
          rw [scanF_step_pct_none u g hspec om]
          simp only [List.length_append, ih, List.length_take, List.length_drop]
          omega
        | some res =>
          obtain ⟨fl, l, tail⟩ := res
          rw [scanF_step_match u g hspec om]
          have hre : (rewriteOut u fl l om).length = om.length := by
            unfold rewriteOut
            by_cases hrw : (classifyFm u ('%' :: (fl ++ [l]))).2 <;>
              simp [hrw, List.length_set]
          simp only [List.length_append, ih, List.length_take, List.length_drop, hre]
          omega
      · rw [scanF_step_ne u g hc im' om]
        simp only [List.length_append, ih, List.length_take, List.length_drop]
        omega

theorem scanF_match (u : Bool) (f : Nat) {fl : List Char}
    (hfl : ∀ c ∈ fl, isFlag c = true) {l : Char} (h1 : isFlag l = false)
    (h2 : isConv l = true) (imr omr : List Char) :
    scanF u (f + 1) ('%' :: (fl ++ l :: imr)) ('%' :: (fl ++ l :: omr)) =
      ('%' :: (fl ++ (if (classifyFm u ('%' :: (fl ++ [l]))).2 then 'd' else l) ::
          (scanF u f imr omr).1),
       (classifyFm u ('%' :: (fl ++ [l]))).1 :: (scanF u f imr omr).2) := by
  rw [scanF_step_match u f (specTail_of_run hfl h1 h2 imr) ('%' :: (fl ++ l :: omr))]
  have hre : rewriteOut u fl l ('%' :: (fl ++ l :: omr)) =
      '%' :: (fl ++ (if (classifyFm u ('%' :: (fl ++ [l]))).2 then 'd' else l) :: omr) := by
    unfold rewriteOut
    by_cases hrw : (classifyFm u ('%' :: (fl ++ [l]))).2
    · simp only [hrw, if_pos, if_true, List.set]
      rw [set_append_len]
    · simp [hrw]
  rw [hre]
  have htk : ('%' :: (fl ++ (if (classifyFm u ('%' :: (fl ++ [l]))).2 then 'd' else l)
      :: omr)).take (fl.length + 2) =
      '%' :: (fl ++ [if (classifyFm u ('%' :: (fl ++ [l]))).2 then 'd' else l]) := by
    show List.take (fl.length + 1 + 1) _ = _
    rw [List.take_succ_cons, take_append_len]
  have hdr : ('%' :: (fl ++ (if (classifyFm u ('%' :: (fl ++ [l]))).2 then 'd' else l)
      :: omr)).drop (fl.length + 2) = omr := by
    show List.drop (fl.length + 1 + 1) _ = _
    rw [List.drop_succ_cons, drop_append_len]
  rw [htk, hdr]
  simp

/-! ### Evaluating the classification of a `%digits*letter` directive -/

theorem hasPat_no_pct {cls fin : Char → Bool} {xs : List Char}
    (h : ∀ c ∈ xs, ¬ c = '%') : hasPat cls fin xs = false := by
  induction xs with
  | nil => rfl
  | cons c r ih =>
    simp [hasPat, h c (by simp), ih (fun d hd => h d (by simp [hd]))]

theorem hasPat_pct_cons {cls fin : Char → Bool} {rest : List Char}
    (h : ∀ c ∈ rest, ¬ c = '%') :
    hasPat cls fin ('%' :: rest) = matchTailRun cls fin rest := by
  simp [hasPat, hasPat_no_pct h]

theorem matchTailRun_all {cls fin : Char → Bool} {ds : List Char}
    (h : ∀ c ∈ ds, cls c = true) (y : List Char) :
    matchTailRun cls fin (ds ++ y) = matchTailRun cls fin y := by
  induction ds with
  | nil => rfl
  | cons d ds' ih =>
    simp [matchTailRun, h d (by simp), ih (fun c hc => h c (by simp [hc]))]

theorem isDigit_ne {c : Char} (h : c.isDigit = true) {l : Char}
    (hl : l.isDigit = false) : ¬ c = l := by
  intro he
  subst he
  exact absurd (h.symm.trans hl) (by decide)

/-- Classification of a directive whose flags are all digits: exactly the
shape `%[0-9]*letter` that the secondary patterns of the source can match.
The hypotheses on `l` exclude the characters handled by the `%p`/`%t`
literal patterns and the float flag class; every concrete conversion letter
discharges them by `decide`. -/
theorem classifyFm_digits (u : Bool) {ds : List Char}
    (hds : ∀ c ∈ ds, c.isDigit = true) {l : Char} (hl : l.isDigit = false)
    (hpct : ¬ l = '%') (hp : ¬ l = 'p') (ht : ¬ l = 't')
    (hff : isFloatFlag l = false) :
    classifyFm u ('%' :: (ds ++ [l])) =
      if isFloatConv l then (2, false)
      else if l = 'u' then (0, true)
      else if l = 'i' then (1, true)
      else if isXConv l then ((if u then 0 else 1), false)
      else (1, false) := by
  have hne : ∀ c ∈ ds ++ [l], ¬ c = '%' := by
    intro c hc
    rcases List.mem_append.mp hc with h | h
    · exact isDigit_ne (hds c h) (by decide)
    · simp only [List.mem_singleton] at h
      subst h
      exact hpct
  have hfl : ∀ c ∈ ds, isFloatFlag c = true := by
    intro c hc
    simp [isFloatFlag, hds c hc]
  have hpchk : matchTailRun (fun _ => false) (fun c => decide (c = 'p'))
      (ds ++ [l]) = false := by
    cases ds with
    | nil => simp [matchTailRun, hp]
    | cons d ds' =>
      simp [matchTailRun, isDigit_ne (hds d (by simp)) (by decide : ('p' : Char).isDigit = false)]
  have htchk : matchTailRun (fun _ => false) (fun c => decide (c = 't'))
      (ds ++ [l]) = false := by
    cases ds with
    | nil => simp [matchTailRun, ht]
    | cons d ds' =>
      simp [matchTailRun, isDigit_ne (hds d (by simp)) (by decide : ('t' : Char).isDigit = false)]
  have hfchk : matchTailRun isFloatFlag isFloatConv (ds ++ [l]) = isFloatConv l := by
    rw [matchTailRun_all hfl]
    simp [matchTailRun, hff]
  have huchk : matchTailRun Char.isDigit (fun c => decide (c = 'u')) (ds ++ [l]) =
      decide (l = 'u') := by
    rw [matchTailRun_all hds]
    simp [matchTailRun, hl]
  have hichk : matchTailRun Char.isDigit (fun c => decide (c = 'i')) (ds ++ [l]) =
      decide (l = 'i') := by
    rw [matchTailRun_all hds]
    simp [matchTailRun, hl]
  have hxchk : matchTailRun Char.isDigit isXConv (ds ++ [l]) = isXConv l := by
    rw [matchTailRun_all hds]
    simp [matchTailRun, hl]
  unfold classifyFm
  rw [hasPat_pct_cons hne, hasPat_pct_cons hne, hasPat_pct_cons hne,
    hasPat_pct_cons hne, hasPat_pct_cons hne, hasPat_pct_cons hne,
    hpchk, htchk, hfchk, huchk, hichk, hxchk]
  simp

/-- Classification of a `%[0-9]*l` directive with `l` in the
`patNextFormatXSpecifier` family, under the precedence carve-out: a bare
`%p` or `%t` (empty flag run) is taken by the pointer/bool branches first,
so it is excluded; every other such directive reaches the hex-family branch
and gets the switch-dependent kind. -/
theorem classifyFm_digits_xfam (u : Bool) {ds : List Char}
    (hds : ∀ c ∈ ds, c.isDigit = true) {l : Char} (hl : l.isDigit = false)
    (hx : isXConv l = true) (hff : isFloatFlag l = false)
    (hfc : isFloatConv l = false) (hu : ¬ l = 'u') (hi : ¬ l = 'i')
    (hpct : ¬ l = '%') (hprec : ¬ (ds = [] ∧ (l = 'p' ∨ l = 't'))) :
    classifyFm u ('%' :: (ds ++ [l])) = ((if u then 0 else 1), false) := by
  have hne : ∀ c ∈ ds ++ [l], ¬ c = '%' := by
    intro c hc
    rcases List.mem_append.mp hc with h | h
    · exact isDigit_ne (hds c h) (by decide)
    · simp only [List.mem_singleton] at h
      subst h
      exact hpct
  have hfl : ∀ c ∈ ds, isFloatFlag c = true := by
    intro c hc
    simp [isFloatFlag, hds c hc]
  have hpchk : matchTailRun (fun _ => false) (fun c => decide (c = 'p'))
      (ds ++ [l]) = false := by
    cases ds with
    | nil =>
      have hp : ¬ l = 'p' := fun he => hprec ⟨rfl, Or.inl he⟩
      simp [matchTailRun, hp]
    | cons d ds' =>
      simp [matchTailRun,
        isDigit_ne (hds d (by simp)) (by decide : ('p' : Char).isDigit = false)]
  have htchk : matchTailRun (fun _ => false) (fun c => decide (c = 't'))
      (ds ++ [l]) = false := by
    cases ds with
    | nil =>
      have ht : ¬ l = 't' := fun he => hprec ⟨rfl, Or.inr he⟩
      simp [matchTailRun, ht]
    | cons d ds' =>
      simp [matchTailRun,
        isDigit_ne (hds d (by simp)) (by decide : ('t' : Char).isDigit = false)]
  have hfchk : matchTailRun isFloatFlag isFloatConv (ds ++ [l]) = false := by
    rw [matchTailRun_all hfl]
    simp [matchTailRun, hff, hfc]
  have huchk : matchTailRun Char.isDigit (fun c => decide (c = 'u')) (ds ++ [l]) =
      false := by
    rw [matchTailRun_all hds]
    simp [matchTailRun, hl, hu]
  have hichk : matchTailRun Char.isDigit (fun c => decide (c = 'i')) (ds ++ [l]) =
      false := by
    rw [matchTailRun_all hds]
    simp [matchTailRun, hl, hi]
  have hxchk : matchTailRun Char.isDigit isXConv (ds ++ [l]) = true := by
    rw [matchTailRun_all hds]
    simp [matchTailRun, hl, hx]
  unfold classifyFm
  rw [hasPat_pct_cons hne, hasPat_pct_cons hne, hasPat_pct_cons hne,
    hasPat_pct_cons hne, hasPat_pct_cons hne, hasPat_pct_cons hne,
    hpchk, htchk, hfchk, huchk, hichk, hxchk]
  simp

/-- Full decomposition of `UReplaceN` at the first directive: a prefix
without `%`, then `%`, digit flags, a conversion letter, then the rest of
the string, which is processed exactly as `UReplaceN` of the rest. -/
theorem UReplaceN_match_decomp (u : Bool) {pre ds : List Char}
    (hpre : ∀ c ∈ pre, ¬ c = '%') (hds : ∀ c ∈ ds, c.isDigit = true)
    {l : Char} (hlf : isFlag l = false) (hlc : isConv l = true)
    (hlp : ¬ l = '%') (post : List Char) :
    UReplaceN u (pre ++ '%' :: (ds ++ l :: post)) =
      (pre ++ '%' :: (ds ++
          (if (classifyFm u ('%' :: (ds ++ [l]))).2 then 'd' else l) ::
          (UReplaceN u post).1),
       (classifyFm u ('%' :: (ds ++ [l]))).1 :: (UReplaceN u post).2) := by
  have hds' : ∀ c ∈ ds, ¬ c = '%' := fun c hc => isDigit_ne (hds c hc) (by decide)
  have hdsf : ∀ c ∈ ds, isFlag c = true := fun c hc => by simp [isFlag, hds c hc]
  unfold UReplaceN
  rw [mask_append_no_pct hpre, mask_pct_append hds' hlp]
  have hfuel : (pre ++ '%' :: (ds ++ l :: post)).length =
      pre.length + ((ds.length + post.length + 1) + 1) := by
    simp only [List.length_append, List.length_cons]
    omega
  rw [hfuel, scanF_prefix u hpre,
    scanF_match u (ds.length + post.length + 1) hdsf hlf hlc (mask post) post,
    scanF_fuel u (ds.length + post.length + 1) (mask post)
      (by rw [mask_length]; omega) post.length (by rw [mask_length]) post]

/-! ### Claim theorems -/

/-- C1: every directive of the form `%[0-9]*u` is classified with kind code
0 (unsigned) and its conversion letter is rewritten to `d`; the text before
the directive is untouched and the rest is processed as usual. -/
theorem UReplaceN_unsigned_directive (u : Bool) (pre ds post : List Char)
    (hpre : ∀ c ∈ pre, ¬ c = '%') (hds : ∀ c ∈ ds, c.isDigit = true) :
    UReplaceN u (pre ++ '%' :: (ds ++ 'u' :: post)) =
      (pre ++ '%' :: (ds ++ 'd' :: (UReplaceN u post).1),
       0 :: (UReplaceN u post).2) := by
  have hcl : classifyFm u ('%' :: (ds ++ ['u'])) = (0, true) := by
    rw [classifyFm_digits u hds (by decide) (by decide) (by decide) (by decide)
      (by decide), if_neg (by decide : ¬ isFloatConv 'u' = true), if_pos rfl]
  rw [UReplaceN_match_decomp u hpre hds (by decide) (by decide) (by decide) post,
    hcl]
  rfl

/-- Witness for C1 at the concrete input `a%3u`. -/
theorem UReplaceN_unsigned_directive_witness :
    (∀ c ∈ ['a'], ¬ c = '%') ∧ (∀ c ∈ ['3'], Char.isDigit c = true) ∧
    UReplaceN true (['a'] ++ '%' :: (['3'] ++ 'u' :: [])) =
      (['a'] ++ '%' :: (['3'] ++ 'd' :: (UReplaceN true []).1),
       0 :: (UReplaceN true []).2) :=
  ⟨by decide, by decide,
    UReplaceN_unsigned_directive true ['a'] ['3'] [] (by decide) (by decide)⟩

/-- C2: a directive `%[0-9]*l` with `l` any letter of the
`patNextFormatXSpecifier` family `x X o O b l p t` that is not classified by
an earlier precedence branch (a bare `%p` or `%t` is pointer/bool) gets
kind 0 when the global `Unsigned` switch is set and kind 1 otherwise, and
the directive text is unchanged. -/
theorem UReplaceN_hex_family_directive (u : Bool) (pre ds post : List Char)
    (l : Char) (hpre : ∀ c ∈ pre, ¬ c = '%')
    (hds : ∀ c ∈ ds, c.isDigit = true)
    (hl : l = 'x' ∨ l = 'X' ∨ l = 'o' ∨ l = 'O' ∨ l = 'b' ∨ l = 'l' ∨
      l = 'p' ∨ l = 't')
    (hprec : ¬ (ds = [] ∧ (l = 'p' ∨ l = 't'))) :
    UReplaceN u (pre ++ '%' :: (ds ++ l :: post)) =
      (pre ++ '%' :: (ds ++ l :: (UReplaceN u post).1),
       (if u then 0 else 1) :: (UReplaceN u post).2) := by
  obtain ⟨h1, h2, h3, h4, h5, h6, h7, h8, h9⟩ :
      l.isDigit = false ∧ isXConv l = true ∧ isFloatFlag l = false ∧
      isFloatConv l = false ∧ ¬ l = 'u' ∧ ¬ l = 'i' ∧ ¬ l = '%' ∧
      isFlag l = false ∧ isConv l = true := by
    rcases hl with rfl | rfl | rfl | rfl | rfl | rfl | rfl | rfl <;> exact by decide
  have hcl := classifyFm_digits_xfam u hds h1 h2 h3 h4 h5 h6 h7 hprec
  rw [UReplaceN_match_decomp u hpre hds h8 h9 h7 post, hcl]
  rfl

/-- Witness for C2 at the concrete input `a%8p` with the switch on: a
pointer letter with a digit flag run lands in the hex family. -/
theorem UReplaceN_hex_family_directive_witness :
    (∀ c ∈ ['a'], ¬ c = '%') ∧ (∀ c ∈ ['8'], Char.isDigit c = true) ∧
    ('p' = 'x' ∨ 'p' = 'X' ∨ 'p' = 'o' ∨ 'p' = 'O' ∨ 'p' = 'b' ∨ 'p' = 'l' ∨
      'p' = 'p' ∨ 'p' = 't') ∧
    ¬ ((['8'] : List Char) = [] ∧ ('p' = 'p' ∨ 'p' = 't')) ∧
    UReplaceN true (['a'] ++ '%' :: (['8'] ++ 'p' :: [])) =
      (['a'] ++ '%' :: (['8'] ++ 'p' :: (UReplaceN true []).1),
       (if true then 0 else 1) :: (UReplaceN true []).2) :=
  ⟨by decide, by decide, by decide, by decide,
    UReplaceN_hex_family_directive true ['a'] ['8'] [] 'p' (by decide)
      (by decide) (by decide) (by decide)⟩

/-- C5: a format string without any `%` is returned unchanged with an empty
kind sequence. -/
theorem UReplaceN_literal_only (u : Bool) (i : List Char) (h : '%' ∉ i) :
    UReplaceN u i = (i, []) := by
  have h' : ∀ c ∈ i, ¬ c = '%' := fun c hc he => h (he ▸ hc)
  unfold UReplaceN
  rw [mask_id_no_pct h']
  exact scanF_no_pct u h' i.length (Nat.le_refl _) i

/-- Witness for C5 at the concrete input `hello`. -/
theorem UReplaceN_literal_only_witness :
    '%' ∉ "hello".toList ∧
    UReplaceN true ("hello".toList) = ("hello".toList, []) :=
  ⟨by decide, UReplaceN_literal_only true ("hello".toList) (by decide)⟩

/-- Strings of literal text and `%%` escapes mask to strings without `%`. -/
theorem onlyEsc_mask_no_pct :
    ∀ {i : List Char}, onlyEsc i = true → ∀ c ∈ mask i, ¬ c = '%' := by
  intro i
  induction i using mask.induct with
  | case1 => intro _ c hc; simp [mask] at hc
  | case2 c0 =>
    intro h c hc
    by_cases hc0 : c0 = '%'
    · simp [onlyEsc, hc0] at h
    · simp [mask] at hc
      subst hc
      exact hc0
  | case3 c c2 rest hcc ih =>
    intro h c3 hc3
    obtain ⟨rfl, rfl⟩ := hcc
    simp only [onlyEsc, if_pos rfl] at h
    simp only [mask, if_pos (And.intro rfl rfl)] at hc3
    rcases List.mem_cons.mp hc3 with rfl | hc3
    · decide
    rcases List.mem_cons.mp hc3 with rfl | hc3
    · decide
    · exact ih h c3 hc3
  | case4 c c2 rest hcc ih =>
    intro h c3 hc3
    by_cases hc : c = '%'
    · subst hc
      by_cases hc2 : c2 = '%'
      · exact absurd ⟨rfl, hc2⟩ hcc
      · simp [onlyEsc, hc2] at h
    · simp only [onlyEsc, if_neg hc] at h
      simp only [mask, if_neg hcc] at hc3
      rcases List.mem_cons.mp hc3 with rfl | hc3
      · exact hc
      · exact ih h c3 hc3

/-- C6: a format string consisting only of literal text and escaped `%%`
pairs is returned unchanged with an empty kind sequence: the `%%` escapes
are masked before scanning and never produce a kind entry. -/
theorem UReplaceN_escaped_only (u : Bool) (i : List Char)
    (h : onlyEsc i = true) : UReplaceN u i = (i, []) := by
  unfold UReplaceN
  exact scanF_no_pct u (onlyEsc_mask_no_pct h) i.length
    (by rw [mask_length]) i

/-- Witness for C6 at the concrete input `a%%b%%`. -/
theorem UReplaceN_escaped_only_witness :
    onlyEsc ("a%%b%%".toList) = true ∧
    UReplaceN false ("a%%b%%".toList) = ("a%%b%%".toList, []) :=
  ⟨by decide, UReplaceN_escaped_only false ("a%%b%%".toList) (by decide)⟩

/-- C9: the rewritten string always has exactly the length of the input:
rewrites replace single characters in place. -/
theorem UReplaceN_length_preserved (u : Bool) (i : List Char) :
    ((UReplaceN u i).1).length = i.length :=
  scanF_len u i.length (mask i) i

/-- C10: a `%s` directive is not matched by the specifier pattern: it
contributes no kind entry and is left unchanged. -/
theorem UReplaceN_string_directive_skipped (u : Bool) (pre post : List Char)
    (hpre : ∀ c ∈ pre, ¬ c = '%') :
    UReplaceN u (pre ++ '%' :: 's' :: post) =
      (pre ++ '%' :: 's' :: (UReplaceN u post).1, (UReplaceN u post).2) := by
  unfold UReplaceN
  rw [mask_append_no_pct hpre,
    mask_pct_cons_ne (by decide : ¬ ('s' : Char) = '%'),
    mask_cons_ne (by decide : ¬ ('s' : Char) = '%')]
  have hfuel : (pre ++ '%' :: 's' :: post).length =
      pre.length + ((post.length + 1) + 1) := by
    simp only [List.length_append, List.length_cons]
  have hspec : specTail ('s' :: mask post) = none := by
    simp [specTail, List.dropWhile_cons,
      show isFlag 's' = false from by decide,
      show isConv 's' = false from by decide]
  rw [hfuel, scanF_prefix u hpre,
    scanF_step_pct_none u (post.length + 1) hspec ('%' :: 's' :: post)]
  have hpre1 : scanF u (post.length + 1) ('s' :: mask post) ('s' :: post) =
      ('s' :: (scanF u post.length (mask post) post).1,
       (scanF u post.length (mask post) post).2) := by
    have := scanF_prefix u
      (show ∀ c ∈ (['s'] : List Char), ¬ c = '%' from by decide)
      post.length (mask post) post
    simpa [Nat.add_comm] using this
  simp only [List.take_cons, List.take_zero, List.drop_succ_cons, List.drop_zero,
    List.drop_one, List.tail_cons]
  rw [hpre1]
  rfl

/-- Witness for C10 at the concrete input `v=%s!`. -/
theorem UReplaceN_string_directive_skipped_witness :
    (∀ c ∈ ['v', '='], ¬ c = '%') ∧
    UReplaceN true (['v', '='] ++ '%' :: 's' :: ['!']) =
      (['v', '='] ++ '%' :: 's' :: (UReplaceN true ['!']).1,
       (UReplaceN true ['!']).2) :=
  ⟨by decide,
    UReplaceN_string_directive_skipped true ['v', '='] ['!'] (by decide)⟩

/-- C3 counterexample: with the global `Unsigned` switch off, the format
string `val=%d hex=%x` is classified `[1, 1]`, not `[1, 0]`; the kind of a
hex directive does depend on the configuration. -/
theorem UReplaceN_roundtrip_config_counterexample :
    UReplaceN false ("val=%d hex=%x".toList) ≠
      ("val=%d hex=%x".toList, [1, 0]) := by
  decide

/-- C3 amended: the format string `val=%d hex=%x` is returned unchanged with
kinds `[1, 0]` when the global `Unsigned` switch is set and `[1, 1]` when it
is not. -/
theorem UReplaceN_roundtrip_kinds (u : Bool) :
    UReplaceN u ("val=%d hex=%x".toList) =
      ("val=%d hex=%x".toList, [1, if u then 0 else 1]) := by
  cases u <;> decide

/-- C4: directive classification follows the fixed precedence of the branch
order in `UReplaceN`; in particular `flag=%t ptr=%p` yields the kinds
`[3, 4]` (bool, pointer) with both directives unchanged, for either value of
the `Unsigned` switch. -/
theorem UReplaceN_bool_pointer_scenario (u : Bool) :
    UReplaceN u ("flag=%t ptr=%p".toList) =
      ("flag=%t ptr=%p".toList, [3, 4]) := by
  cases u <;> decide

/-- C8 counterexample: two invocations of `UReplaceN` on the same format
string can differ, because the result depends on the mutable package-level
`Unsigned` switch, state outside the string argument. -/
theorem UReplaceN_global_state_counterexample :
    UReplaceNGlob
        { Verbose := false, ShowID := [], TestTableMode := false,
          Unsigned := true, DebugOut := false, InitialCycle := true,
          TargetTimestamp := 0, TargetLocation := 0 } ("hex=%x".toList) ≠
      UReplaceNGlob
        { Verbose := false, ShowID := [], TestTableMode := false,
          Unsigned := false, DebugOut := false, InitialCycle := true,
          TargetTimestamp := 0, TargetLocation := 0 } ("hex=%x".toList) := by
  decide

/-- C8 amended: `UReplaceN` is a pure function of the format string and the
global `Unsigned` switch: its result is unchanged under any modification of
the remaining package-level state. -/
theorem UReplaceN_depends_only_on_Unsigned (g1 g2 : DecoderGlobals)
    (i : List Char) (h : g1.Unsigned = g2.Unsigned) :
    UReplaceNGlob g1 i = UReplaceNGlob g2 i := by
  unfold UReplaceNGlob
  rw [h]

/-- Witness for the amended C8: two global states differing in every field
except `Unsigned` classify `q=%u` identically. -/
theorem UReplaceN_depends_only_on_Unsigned_witness :
    (DecoderGlobals.mk true ['x'] true true true false 7 9).Unsigned =
      (DecoderGlobals.mk false [] false true false true 0 0).Unsigned ∧
    UReplaceNGlob (DecoderGlobals.mk true ['x'] true true true false 7 9)
        ("q=%u".toList) =
      UReplaceNGlob (DecoderGlobals.mk false [] false true false true 0 0)
        ("q=%u".toList) :=
  ⟨rfl, UReplaceN_depends_only_on_Unsigned _ _ _ rfl⟩

/-! ### Endian readers -/

theorem lor_shiftLeft_eq_add {k a : Nat} (h : a < 2 ^ k) (c : Nat) :
    a ||| c <<< k = a + 2 ^ k * c := by
  apply Nat.eq_of_testBit_eq
  intro j
  rw [Nat.testBit_lor, Nat.testBit_shiftLeft,
    show a + 2 ^ k * c = 2 ^ k * c + a from by omega,
    Nat.testBit_mul_pow_two_add c h j]
  by_cases hj : j < k
  · simp [hj, Nat.not_le.mpr hj]
  · have hk : k ≤ j := Nat.not_lt.mp hj
    have ha : a.testBit j = false :=
      Nat.testBit_lt_two_pow (lt_of_lt_of_le h (Nat.pow_le_pow_right (by omega) hk))
    simp [hj, hk, ha]

/-- C7: each reader returns (without failing) the value of the first N bytes
under the session's endianness: the little-endian positional value when
`Endian` is true, the big-endian one when it is false. -/
theorem Read_endian_values (p : DecoderData) (b : List Nat)
    (hb : ∀ x ∈ b, x < 256) :
    (2 ≤ b.length →
      p.ReadU16 b = some (if p.Endian then specLittleEndianValue (b.take 2)
                          else specBigEndianValue (b.take 2))) ∧
    (4 ≤ b.length →
      p.ReadU32 b = some (if p.Endian then specLittleEndianValue (b.take 4)
                          else specBigEndianValue (b.take 4))) ∧
    (8 ≤ b.length →
      p.ReadU64 b = some (if p.Endian then specLittleEndianValue (b.take 8)
                          else specBigEndianValue (b.take 8))) := by
  refine ⟨?_, ?_, ?_⟩
  · intro hlen
    rcases b with - | ⟨b0, - | ⟨b1, r⟩⟩
    · simp at hlen
    · simp at hlen
    have h0 : b0 < 256 := hb b0 (by simp)
    have h1 : b1 < 256 := hb b1 (by simp)
    cases hE : p.Endian <;>
      simp only [DecoderData.ReadU16, hE, if_true, if_false,
        Bool.false_eq_true, List.take_succ_cons, List.take_zero,
        specLittleEndianValue, specBigEndianValue, List.reverse_cons,
        List.reverse_nil, List.nil_append, List.cons_append,
        Option.some.injEq] <;>
      rw [lor_shiftLeft_eq_add (show _ < 2 ^ 8 by omega)] <;>
      norm_num
  · intro hlen
    rcases b with - | ⟨b0, - | ⟨b1, - | ⟨b2, - | ⟨b3, r⟩⟩⟩⟩ <;>
      try simp at hlen
    have h0 : b0 < 256 := hb b0 (by simp)
    have h1 : b1 < 256 := hb b1 (by simp)
    have h2 : b2 < 256 := hb b2 (by simp)
    have h3 : b3 < 256 := hb b3 (by simp)
    cases hE : p.Endian <;>
      simp only [DecoderData.ReadU32, hE, if_true, if_false,
        Bool.false_eq_true, List.take_succ_cons, List.take_zero,
        specLittleEndianValue, specBigEndianValue, List.reverse_cons,
        List.reverse_nil, List.nil_append, List.cons_append,
        List.append_assoc, Option.some.injEq] <;>
      rw [lor_shiftLeft_eq_add (show _ < 2 ^ 8 by omega),
        lor_shiftLeft_eq_add (show _ < 2 ^ 16 by norm_num; omega),
        lor_shiftLeft_eq_add (show _ < 2 ^ 24 by norm_num; omega)] <;>
      (norm_num; try ring)
  · intro hlen
    rcases b with - | ⟨b0, - | ⟨b1, - | ⟨b2, - | ⟨b3, - | ⟨b4, - | ⟨b5, - |
      ⟨b6, - | ⟨b7, r⟩⟩⟩⟩⟩⟩⟩⟩ <;>
      try simp at hlen
    have h0 : b0 < 256 := hb b0 (by simp)
    have h1 : b1 < 256 := hb b1 (by simp)
    have h2 : b2 < 256 := hb b2 (by simp)
    have h3 : b3 < 256 := hb b3 (by simp)
    have h4 : b4 < 256 := hb b4 (by simp)
    have h5 : b5 < 256 := hb b5 (by simp)
    have h6 : b6 < 256 := hb b6 (by simp)
    have h7 : b7 < 256 := hb b7 (by simp)
    cases hE : p.Endian <;>
      simp only [DecoderData.ReadU64, hE, if_true, if_false,
        Bool.false_eq_true, List.take_succ_cons, List.take_zero,
        specLittleEndianValue, specBigEndianValue, List.reverse_cons,
        List.reverse_nil, List.nil_append, List.cons_append,
        List.append_assoc, Option.some.injEq] <;>
      rw [lor_shiftLeft_eq_add (show _ < 2 ^ 8 by omega),
        lor_shiftLeft_eq_add (show _ < 2 ^ 16 by norm_num; omega),
        lor_shiftLeft_eq_add (show _ < 2 ^ 24 by norm_num; omega),
        lor_shiftLeft_eq_add (show _ < 2 ^ 32 by norm_num; omega),
        lor_shiftLeft_eq_add (show _ < 2 ^ 40 by norm_num; omega),
        lor_shiftLeft_eq_add (show _ < 2 ^ 48 by norm_num; omega),
        lor_shiftLeft_eq_add (show _ < 2 ^ 56 by norm_num; omega)] <;>
      (norm_num; try ring)

/-- Witness for C7 at a concrete session and byte slice. -/
theorem Read_endian_values_witness :
    (∀ x ∈ [1, 2, 3, 4, 5, 6, 7, 8, 9], x < 256) ∧
    ((2 ≤ ([1, 2, 3, 4, 5, 6, 7, 8, 9] : List Nat).length →
      (DecoderData.mk [] [] true 0 0 0).ReadU16 [1, 2, 3, 4, 5, 6, 7, 8, 9] =
        some (if (DecoderData.mk [] [] true 0 0 0).Endian
              then specLittleEndianValue ([1, 2, 3, 4, 5, 6, 7, 8, 9].take 2)
              else specBigEndianValue ([1, 2, 3, 4, 5, 6, 7, 8, 9].take 2))) ∧
     (4 ≤ ([1, 2, 3, 4, 5, 6, 7, 8, 9] : List Nat).length →
      (DecoderData.mk [] [] true 0 0 0).ReadU32 [1, 2, 3, 4, 5, 6, 7, 8, 9] =
        some (if (DecoderData.mk [] [] true 0 0 0).Endian
              then specLittleEndianValue ([1, 2, 3, 4, 5, 6, 7, 8, 9].take 4)
              else specBigEndianValue ([1, 2, 3, 4, 5, 6, 7, 8, 9].take 4))) ∧
     (8 ≤ ([1, 2, 3, 4, 5, 6, 7, 8, 9] : List Nat).length →
      (DecoderData.mk [] [] true 0 0 0).ReadU64 [1, 2, 3, 4, 5, 6, 7, 8, 9] =
        some (if (DecoderData.mk [] [] true 0 0 0).Endian
              then specLittleEndianValue ([1, 2, 3, 4, 5, 6, 7, 8, 9].take 8)
              else specBigEndianValue ([1, 2, 3, 4, 5, 6, 7, 8, 9].take 8)))) :=
  ⟨by decide,
    Read_endian_values (DecoderData.mk [] [] true 0 0 0)
      [1, 2, 3, 4, 5, 6, 7, 8, 9] (by decide)⟩

end TriceDecoder
